import Mathlib

/-!
Verification development for the InternalFraud extraction & distribution
pipeline.  The repository ships only a usage notebook
(`InternalFraud-Example.ipynb`); the pipeline components (`AuditReport`,
`SendReport`, the rule matcher, scanner, planner and executor of the
`InternalFraud` module) are not part of the repository sources, so each of
them is modelled here from the specification, faithfully to its words.
The `SendReport` constructor defaults are embedded from the notebook's
printed docstring, which is part of the repository.
-/

/- ===== Rule Matcher data model ===== -/

/-- Filter rule as loaded from the configuration workbook: a field name,
a pattern matched against that field, and the classification action. -/
structure FilterRule where
  field : String
  pattern : String
  action : String
deriving DecidableEq

/-- Raw message produced by the Mail Scanner; never mutated. -/
structure RawMessage where
  folder_path : String
  sender : String
  recipients : List String
  subject : String
  sent_at : String
  body_ref : String
  attachments : List String
deriving DecidableEq

/-- Scan of a character list for an occurrence of `pat` as a contiguous
run, used to realise substring matching. -/
def subOccurs (pat : List Char) : List Char → Bool
  | [] => pat.isEmpty
  | c :: rest => pat.isPrefixOf (c :: rest) || subOccurs pat rest

/-- Lower-casing of one ASCII character, realising the case-insensitive
comparison prescribed for rule patterns. -/
def lowerChar (c : Char) : Char :=
  if 65 ≤ c.toNat ∧ c.toNat ≤ 90 then Char.ofNat (c.toNat + 32) else c

/-- Modelled from the spec: case-insensitive substring match of a rule's
pattern against a text field (Rule Matcher, section 4.2). -/
def substrMatch (pat text : String) : Bool :=
  subOccurs (pat.toList.map lowerChar) (text.toList.map lowerChar)

/-- Modelled from the spec: the texts of the named message field a rule's
pattern is matched against (sender, subject, body, attachment name). -/
def fieldTexts (m : RawMessage) (f : String) : List String :=
  if f = "sender" then [m.sender]
  else if f = "subject" then [m.subject]
  else if f = "body" then [m.body_ref]
  else if f = "attachment" then m.attachments
  else []

/-- Modelled from the spec: whether one rule matches a message. -/
def ruleMatches (m : RawMessage) (r : FilterRule) : Bool :=
  (fieldTexts m r.field).any (fun t => substrMatch r.pattern t)

/-- Modelled from the spec: the first rule, in declared order, whose
pattern matches the message. -/
def firstMatch (m : RawMessage) : List FilterRule → Option FilterRule
  | [] => none
  | r :: rs => if ruleMatches m r then some r else firstMatch m rs

/-- Modelled from the spec: the rule ids (indices in declaration order,
starting from `start`) of all rules matching the message. -/
def matchIdxs (m : RawMessage) : Nat → List FilterRule → List Nat
  | _, [] => []
  | i, r :: rs =>
    if ruleMatches m r then i :: matchIdxs m (i + 1) rs
    else matchIdxs m (i + 1) rs

/-- Result of evaluating one message against the rule set.  The primary
classification is the action of the first matching rule; the
`extracted_fields` of the spec are empty because case-insensitive
substring patterns have no named capture groups. -/
structure MatchResult where
  matched : Bool
  classification : Option String
  matched_rules : List Nat
  fields : List (Nat × String)
deriving DecidableEq

/-- Modelled from the spec: the Rule Matcher contract
`evaluate(message, rules) -> MatchResult` (section 4.2), a pure function
evaluating rules in declared order, first match setting the primary
classification, every matching rule recorded. -/
def evaluate (m : RawMessage) (rules : List FilterRule) : MatchResult :=
  { matched := (firstMatch m rules).isSome
    classification := (firstMatch m rules).map (fun r => r.action)
    matched_rules := matchIdxs m 0 rules
    fields := [] }

/- ===== Rule Matcher lemmas ===== -/

theorem firstMatch_of_min (m : RawMessage) :
    ∀ (rules : List FilterRule) (i : Nat) (r : FilterRule),
      rules.get? i = some r → ruleMatches m r = true →
      (∀ j rj, j < i → rules.get? j = some rj → ruleMatches m rj = false) →
      firstMatch m rules = some r := by
  intro rules
  induction rules with
  | nil => intro i r hget; simp [List.get?] at hget
  | cons r0 rs ih =>
    intro i r hget hm hmin
    cases i with
    | zero =>
      have hr : r0 = r := by simpa using hget
      subst hr
      simp [firstMatch, hm]
    | succ i' =>
      have h0 : ruleMatches m r0 = false := hmin 0 r0 (Nat.succ_pos _) rfl
      have hget' : rs.get? i' = some r := by simpa using hget
      simp only [firstMatch, h0, Bool.false_eq_true, if_false]
      exact ih i' r hget' hm
        (fun j rj hj hg => hmin (j + 1) rj (Nat.succ_lt_succ hj) (by simpa using hg))

theorem mem_matchIdxs (m : RawMessage) :
    ∀ (rules : List FilterRule) (start j : Nat) (r : FilterRule),
      rules.get? j = some r → ruleMatches m r = true →
      start + j ∈ matchIdxs m start rules := by
  intro rules
  induction rules with
  | nil => intro start j r hget; simp [List.get?] at hget
  | cons r0 rs ih =>
    intro start j r hget hm
    cases j with
    | zero =>
      have hr : r0 = r := by simpa using hget
      subst hr
      simp [matchIdxs, hm]
    | succ j' =>
      have hget' : rs.get? j' = some r := by simpa using hget
      have hmem : (start + 1) + j' ∈ matchIdxs m (start + 1) rs := ih (start + 1) j' r hget' hm
      have harith : start + (j' + 1) = (start + 1) + j' := by omega
      rw [harith]
      cases hc : ruleMatches m r0 with
      | true => simp [matchIdxs, hc]; right; exact hmem
      | false => simpa [matchIdxs, hc] using hmem

/-- C1: when two or more rules match a message, the earliest-declared
matching rule (index `i`, below which no rule matches) determines the
primary classification, and every later matching rule (any index `j`
whose rule matches) is recorded in `matched_rules` without changing the
primary classification. -/
theorem evaluate_first_match_wins (rules : List FilterRule) (m : RawMessage)
    (i : Nat) (r : FilterRule) (j : Nat) (rj : FilterRule)
    (hget : rules.get? i = some r) (hm : ruleMatches m r = true)
    (hmin : ∀ k rk, k < i → rules.get? k = some rk → ruleMatches m rk = false)
    (hgj : rules.get? j = some rj) (hmj : ruleMatches m rj = true) :
    (evaluate m rules).classification = some r.action ∧
      j ∈ (evaluate m rules).matched_rules := by
  constructor
  · simp [evaluate, firstMatch_of_min m rules i r hget hm hmin]
  · have h := mem_matchIdxs m rules 0 j rj hgj hmj
    simpa [evaluate] using h

/-- Concrete fixtures: a message whose subject matches two later rules. -/
def msg0 : RawMessage :=
  { folder_path := "Inbox"
    sender := "alice@bank.com"
    recipients := ["bob@bank.com"]
    subject := "Wire Transfer Request"
    sent_at := "2021-01-01"
    body_ref := "body-1"
    attachments := ["report.xlsx"] }

def rule0 : FilterRule := ⟨"subject", "refund", "ignore"⟩

def rule1 : FilterRule := ⟨"subject", "wire transfer", "flag"⟩

def rule2 : FilterRule := ⟨"subject", "transfer", "review"⟩

def rules0 : List FilterRule := [rule0, rule1, rule2]

theorem evaluate_first_match_wins_witness :
    rules0.get? 1 = some rule1 ∧ ruleMatches msg0 rule1 = true ∧
      rules0.get? 2 = some rule2 ∧ ruleMatches msg0 rule2 = true ∧
      ((evaluate msg0 rules0).classification = some "flag" ∧
        2 ∈ (evaluate msg0 rules0).matched_rules) :=
  ⟨rfl, by decide, rfl, by decide,
    evaluate_first_match_wins rules0 msg0 1 rule1 2 rule2 rfl (by decide)
      (fun k rk hk hg => by
        have hk0 : k = 0 := Nat.lt_one_iff.mp hk
        subst hk0
        have h2 : some rule0 = some rk := hg
        have h3 : rule0 = rk := Option.some.inj h2
        subst h3
        decide)
      rfl (by decide)⟩

/-- C10: rule evaluation is deterministic: two calls on equal inputs
return equal MatchResults; the model is a total pure function, so it
performs no input mutation and no I/O by construction. -/
theorem evaluate_deterministic (m1 m2 : RawMessage) (R1 R2 : List FilterRule)
    (hm : m1 = m2) (hR : R1 = R2) : evaluate m1 R1 = evaluate m2 R2 := by
  subst hm
  subst hR
  rfl

theorem evaluate_deterministic_witness :
    msg0 = msg0 ∧ rules0 = rules0 ∧ evaluate msg0 rules0 = evaluate msg0 rules0 :=
  ⟨rfl, rfl, evaluate_deterministic msg0 msg0 rules0 rules0 rfl rfl⟩

/- ===== SendReport constructor defaults (embedded from the notebook) ===== -/

/-- Constructor parameters of `SendReport` with the defaults documented in
the notebook's printed docstring: `sheet_name1` defaults to "Rename",
`sheet_name2` defaults to "Recipients", and `overwrite` defaults to True
("If True, it overwrites the file. This will result a loss of data that
is irrecoverable."). -/
structure SendReport where
  source : String
  sheet_name1 : String := "Rename"
  sheet_name2 : String := "Recipients"
  overwrite : Bool := true
deriving DecidableEq

/-- C2 counterexample: constructing `SendReport` with only its required
`source` argument yields `overwrite = true`, so the overwrite option does
not default to false as the claim states. -/
theorem sendReport_overwrite_default_not_false :
    ¬ (({ source := "Config.xlsx" } : SendReport).overwrite = false) := by
  decide

/-- C2 amended: the distribution executor's overwrite option defaults to
true, so replacing an existing destination file happens unless the caller
explicitly opts out. -/
theorem sendReport_overwrite_default_true (src : String) :
    ({ source := src } : SendReport).overwrite = true := rfl

/- ===== Filesystem model and Distribution Executor ===== -/

/-- Filesystem state: an association list from paths to file contents. -/
abbrev FS := List (String × String)

/-- Content of the file at a path, none when no such file exists. -/
def fsRead : FS → String → Option String
  | [], _ => none
  | e :: fs, p => if e.1 = p then some e.2 else fsRead fs p

/-- Writing a file: replace the existing entry in place, else append. -/
def fsWrite : FS → String → String → FS
  | [], p, c => [(p, c)]
  | e :: fs, p, c => if e.1 = p then (p, c) :: fs else e :: fsWrite fs p c

theorem fsRead_fsWrite_self (fs : FS) (p c : String) :
    fsRead (fsWrite fs p c) p = some c := by
  induction fs with
  | nil => simp [fsWrite, fsRead]
  | cons e fs ih =>
    by_cases h : e.1 = p
    · simp [fsWrite, h, fsRead]
    · simp [fsWrite, h, fsRead, ih]

theorem fsRead_fsWrite_ne (fs : FS) (p c q : String) (h : q ≠ p) :
    fsRead (fsWrite fs p c) q = fsRead fs q := by
  have hpq : p ≠ q := fun hc => h hc.symm
  induction fs with
  | nil => simp [fsWrite, fsRead, hpq]
  | cons e fs ih =>
    by_cases he : e.1 = p
    · simp [fsWrite, he, fsRead, hpq]
    · simp [fsWrite, he, fsRead, ih]

/-- One planned file placement. -/
structure CopyOp where
  source_path : String
  dest_path : String
  recipient_id : String
deriving DecidableEq

/-- Warnings collected by the planner, the scanner and the executor. -/
inductive Warning where
  | SectionNotFound (label : String)
  | MissingSectionWarning (recipient_id : String) (label : String)
  | DestinationExists (path : String)
  | SourceArtifactMissing (path : String)
  | NotifyFailed (recipient_id : String)
deriving DecidableEq

/-- Ordered sequence of CopyOps together with the planner's warnings. -/
structure DistributionPlan where
  ops : List CopyOp
  warnings : List Warning
deriving DecidableEq

/-- Execution summary: counts of copied, skipped and dry-run-validated
operations, with the warnings collected so far. -/
structure ExecSummary where
  copied : Nat
  skipped : Nat
  validated : Nat
  warnings : List Warning
deriving DecidableEq

/-- Modelled from the spec: one step of the Distribution Executor
(section 4.5).  Dry runs validate source existence and mutate nothing;
otherwise an existing destination is skipped with a `DestinationExists`
warning unless overwrite is set, a missing source is recorded as
`SourceArtifactMissing` and is fatal for that CopyOp only, and the copy
writes the source content to the destination path. -/
def execStep (overwrite dry_run : Bool) (st : FS × ExecSummary) (op : CopyOp) :
    FS × ExecSummary :=
  let fs := st.1
  let sum := st.2
  if dry_run then
    if (fsRead fs op.source_path).isSome then
      (fs, { sum with validated := sum.validated + 1 })
    else
      (fs, { sum with warnings := sum.warnings ++ [Warning.SourceArtifactMissing op.source_path] })
  else if (fsRead fs op.dest_path).isSome then
    if overwrite then
      match fsRead fs op.source_path with
      | some c => (fsWrite fs op.dest_path c, { sum with copied := sum.copied + 1 })
      | none => (fs, { sum with warnings := sum.warnings ++ [Warning.SourceArtifactMissing op.source_path] })
    else
      (fs, { sum with skipped := sum.skipped + 1,
                      warnings := sum.warnings ++ [Warning.DestinationExists op.dest_path] })
  else
    match fsRead fs op.source_path with
    | some c => (fsWrite fs op.dest_path c, { sum with copied := sum.copied + 1 })
    | none => (fs, { sum with warnings := sum.warnings ++ [Warning.SourceArtifactMissing op.source_path] })

/-- Modelled from the spec: the Distribution Executor contract
`execute(plan, overwrite, dry_run)` over the filesystem model, processing
CopyOps in plan order and returning the final filesystem state and the
execution summary (the plan's warnings are carried into the summary). -/
def execute (pl : DistributionPlan) (overwrite dry_run : Bool) (fs : FS) :
    FS × ExecSummary :=
  pl.ops.foldl (execStep overwrite dry_run) (fs, ⟨0, 0, 0, pl.warnings⟩)

/-- Filesystem component of one executor step, ignoring the summary. -/
def stepFS (overwrite dry_run : Bool) (fs : FS) (op : CopyOp) : FS :=
  if dry_run then fs
  else
    match fsRead fs op.source_path with
    | none => fs
    | some c =>
      if (fsRead fs op.dest_path).isSome then
        if overwrite then fsWrite fs op.dest_path c else fs
      else fsWrite fs op.dest_path c

theorem execStep_fst (overwrite dry_run : Bool) (st : FS × ExecSummary) (op : CopyOp) :
    (execStep overwrite dry_run st op).1 = stepFS overwrite dry_run st.1 op := by
  rcases hs : fsRead st.1 op.source_path with _ | c <;>
    rcases hd : (fsRead st.1 op.dest_path).isSome with _ | _ <;>
      cases dry_run <;> cases overwrite <;>
        simp [execStep, stepFS, hs, hd]

theorem execute_fst (pl : DistributionPlan) (overwrite dry_run : Bool) (fs : FS) :
    (execute pl overwrite dry_run fs).1 = pl.ops.foldl (stepFS overwrite dry_run) fs := by
  show (pl.ops.foldl (execStep overwrite dry_run) (fs, ⟨0, 0, 0, pl.warnings⟩)).1 = _
  generalize (⟨0, 0, 0, pl.warnings⟩ : ExecSummary) = sum
  induction pl.ops generalizing fs sum with
  | nil => rfl
  | cons op ops ih =>
    simp only [List.foldl_cons]
    rw [ih (execStep overwrite dry_run (fs, sum) op).1 (execStep overwrite dry_run (fs, sum) op).2]
    rw [execStep_fst]

/-- C3: executing any DistributionPlan with dry_run set performs no
filesystem mutation: the filesystem state after the call is the one
before it (every file and directory keeps its existence and content). -/
theorem execute_dry_run_preserves_fs (pl : DistributionPlan) (overwrite : Bool) (fs : FS) :
    (execute pl overwrite true fs).1 = fs := by
  rw [execute_fst]
  induction pl.ops generalizing fs with
  | nil => rfl
  | cons op ops ih => simpa [stepFS] using ih fs

theorem foldl_execStep_fst (overwrite dry_run : Bool) :
    ∀ (ops : List CopyOp) (st : FS × ExecSummary),
      (ops.foldl (execStep overwrite dry_run) st).1 =
        ops.foldl (stepFS overwrite dry_run) st.1 := by
  intro ops
  induction ops with
  | nil => intro st; rfl
  | cons op ops ih =>
    intro st
    simp only [List.foldl_cons]
    rw [ih, execStep_fst]

theorem execStep_warnings_mono (overwrite dry_run : Bool) (st : FS × ExecSummary)
    (op : CopyOp) (w : Warning) (h : w ∈ st.2.warnings) :
    w ∈ (execStep overwrite dry_run st op).2.warnings := by
  rcases hs : fsRead st.1 op.source_path with _ | c <;>
    rcases hd : (fsRead st.1 op.dest_path).isSome with _ | _ <;>
      cases dry_run <;> cases overwrite <;>
        simp [execStep, hs, hd, List.mem_append, h]

theorem foldl_execStep_warnings_mono (overwrite dry_run : Bool) :
    ∀ (ops : List CopyOp) (st : FS × ExecSummary) (w : Warning),
      w ∈ st.2.warnings →
      w ∈ (ops.foldl (execStep overwrite dry_run) st).2.warnings := by
  intro ops
  induction ops with
  | nil => intro st w h; exact h
  | cons op ops ih =>
    intro st w h
    exact ih _ w (execStep_warnings_mono overwrite dry_run st op w h)

theorem stepFS_no_overwrite_preserves (fs : FS) (op : CopyOp) (p c : String)
    (h : fsRead fs p = some c) :
    fsRead (stepFS false false fs op) p = some c := by
  rcases hs : fsRead fs op.source_path with _ | c' <;>
    rcases hd : fsRead fs op.dest_path with _ | d
  · simp [stepFS, hs, hd, h]
  · simp [stepFS, hs, hd, h]
  · have hne : p ≠ op.dest_path := by
      intro he
      rw [he, hd] at h
      exact Option.noConfusion h
    simp [stepFS, hs, hd, fsRead_fsWrite_ne fs op.dest_path c' p hne, h]
  · simp [stepFS, hs, hd, h]

theorem foldl_stepFS_no_overwrite_preserves :
    ∀ (ops : List CopyOp) (fs : FS) (p c : String),
      fsRead fs p = some c →
      fsRead (ops.foldl (stepFS false false) fs) p = some c := by
  intro ops
  induction ops with
  | nil => intro fs p c h; exact h
  | cons op ops ih =>
    intro fs p c h
    exact ih _ p c (stepFS_no_overwrite_preserves fs op p c h)

/-- C4: when overwrite is off and the destination of a CopyOp already
exists at the time the op is processed, the executor skips the copy (the
state after the op is the state before it, with the skip counted and a
`DestinationExists` warning appended) and continues folding over the
remaining CopyOps; the destination file's content is unchanged by the
whole run and the warning appears in the final summary. -/
theorem execute_dest_exists_skips (l1 l2 : List CopyOp) (op : CopyOp)
    (ws : List Warning) (fs : FS) (c : String)
    (hdst : fsRead fs op.dest_path = some c) :
    fsRead (execute ⟨l1 ++ op :: l2, ws⟩ false false fs).1 op.dest_path = some c ∧
      Warning.DestinationExists op.dest_path ∈
        (execute ⟨l1 ++ op :: l2, ws⟩ false false fs).2.warnings ∧
      execute ⟨l1 ++ op :: l2, ws⟩ false false fs =
        l2.foldl (execStep false false)
          ((l1.foldl (execStep false false) (fs, ⟨0, 0, 0, ws⟩)).1,
           { (l1.foldl (execStep false false) (fs, ⟨0, 0, 0, ws⟩)).2 with
               skipped := (l1.foldl (execStep false false) (fs, ⟨0, 0, 0, ws⟩)).2.skipped + 1,
               warnings := (l1.foldl (execStep false false) (fs, ⟨0, 0, 0, ws⟩)).2.warnings
                 ++ [Warning.DestinationExists op.dest_path] }) := by
  have hdst1 : fsRead (l1.foldl (execStep false false) (fs, ⟨0, 0, 0, ws⟩)).1 op.dest_path = some c := by
    rw [foldl_execStep_fst]
    exact foldl_stepFS_no_overwrite_preserves l1 fs op.dest_path c hdst
  have hstep : execStep false false (l1.foldl (execStep false false) (fs, ⟨0, 0, 0, ws⟩)) op =
      ((l1.foldl (execStep false false) (fs, ⟨0, 0, 0, ws⟩)).1,
       { (l1.foldl (execStep false false) (fs, ⟨0, 0, 0, ws⟩)).2 with
           skipped := (l1.foldl (execStep false false) (fs, ⟨0, 0, 0, ws⟩)).2.skipped + 1,
           warnings := (l1.foldl (execStep false false) (fs, ⟨0, 0, 0, ws⟩)).2.warnings
             ++ [Warning.DestinationExists op.dest_path] }) := by
    simp [execStep, hdst1]
  have hsplit : execute ⟨l1 ++ op :: l2, ws⟩ false false fs =
      l2.foldl (execStep false false)
        (execStep false false (l1.foldl (execStep false false) (fs, ⟨0, 0, 0, ws⟩)) op) := by
    show (l1 ++ op :: l2).foldl (execStep false false) (fs, ⟨0, 0, 0, ws⟩) = _
    rw [List.foldl_append, List.foldl_cons]
  refine ⟨?_, ?_, ?_⟩
  · rw [execute_fst]
    exact foldl_stepFS_no_overwrite_preserves (l1 ++ op :: l2) fs op.dest_path c hdst
  · rw [hsplit, hstep]
    apply foldl_execStep_warnings_mono
    simp
  · rw [hsplit, hstep]

/-- Concrete executor fixtures for the destination-exists scenario. -/
def opD : CopyOp := ⟨"report.xlsx", "dest/r1/Internal.xlsx", "r1"⟩

def opD2 : CopyOp := ⟨"report.xlsx", "dest/r1/Others.xlsx", "r1"⟩

def fsD : FS := [("report.xlsx", "fresh"), ("dest/r1/Internal.xlsx", "old")]

theorem execute_dest_exists_skips_witness :
    fsRead fsD opD.dest_path = some "old" ∧
      (fsRead (execute ⟨[] ++ opD :: [opD2], []⟩ false false fsD).1 opD.dest_path = some "old" ∧
        Warning.DestinationExists opD.dest_path ∈
          (execute ⟨[] ++ opD :: [opD2], []⟩ false false fsD).2.warnings ∧
        execute ⟨[] ++ opD :: [opD2], []⟩ false false fsD =
          [opD2].foldl (execStep false false)
            ((([] : List CopyOp).foldl (execStep false false) (fsD, ⟨0, 0, 0, []⟩)).1,
             { (([] : List CopyOp).foldl (execStep false false) (fsD, ⟨0, 0, 0, []⟩)).2 with
                 skipped := (([] : List CopyOp).foldl (execStep false false)
                   (fsD, ⟨0, 0, 0, []⟩)).2.skipped + 1,
                 warnings := (([] : List CopyOp).foldl (execStep false false)
                     (fsD, ⟨0, 0, 0, []⟩)).2.warnings
                   ++ [Warning.DestinationExists opD.dest_path] })) :=
  ⟨by decide, execute_dest_exists_skips [] [opD2] opD [] fsD "old" (by decide)⟩

/- ===== Idempotence analysis of the overwrite executor ===== -/

/-- Filesystem trace of an overwrite run, as a fold of `stepFS`. -/
def runOv (ops : List CopyOp) (fs : FS) : FS :=
  ops.foldl (stepFS true false) fs

theorem stepFS_true (fs : FS) (op : CopyOp) :
    stepFS true false fs op =
      match fsRead fs op.source_path with
      | none => fs
      | some c => fsWrite fs op.dest_path c := by
  rcases hs : fsRead fs op.source_path with _ | c <;>
    rcases hd : (fsRead fs op.dest_path).isSome with _ | _ <;>
      simp [stepFS, hs, hd]

/-- The writes an overwrite run performs: one destination/content pair per
CopyOp whose source exists, reading contents in the starting state. -/
def writeList (fs : FS) (ops : List CopyOp) : List (String × String) :=
  ops.filterMap (fun op => (fsRead fs op.source_path).map (fun c => (op.dest_path, c)))

/-- Replay of a list of writes against a filesystem state. -/
def applyWrites (fs : FS) (ws : List (String × String)) : FS :=
  ws.foldl (fun f e => fsWrite f e.1 e.2) fs

/-- Last write to a path in a list of writes, if any. -/
def lastWrite : List (String × String) → String → Option String
  | [], _ => none
  | e :: ws, p =>
    match lastWrite ws p with
    | some c => some c
    | none => if e.1 = p then some e.2 else none

theorem applyWrites_read :
    ∀ (ws : List (String × String)) (fs : FS) (p : String),
      fsRead (applyWrites fs ws) p =
        match lastWrite ws p with
        | some c => some c
        | none => fsRead fs p := by
  intro ws
  induction ws with
  | nil => intro fs p; simp [applyWrites, lastWrite]
  | cons e ws ih =>
    intro fs p
    have hstep : applyWrites fs (e :: ws) = applyWrites (fsWrite fs e.1 e.2) ws := rfl
    rw [hstep, ih]
    rcases hlw : lastWrite ws p with _ | c
    · by_cases hp : e.1 = p
      · subst hp
        simp [lastWrite, hlw, fsRead_fsWrite_self]
      · have hne : p ≠ e.1 := fun hc => hp hc.symm
        simp [lastWrite, hlw, hp, fsRead_fsWrite_ne fs e.1 e.2 p hne]
    · simp [lastWrite, hlw]

theorem fsRead_runOv_not_dest :
    ∀ (ops : List CopyOp) (fs : FS) (p : String),
      (∀ op ∈ ops, p ≠ op.dest_path) →
      fsRead (runOv ops fs) p = fsRead fs p := by
  intro ops
  induction ops with
  | nil => intro fs p _; rfl
  | cons op ops ih =>
    intro fs p h
    have hstep : runOv (op :: ops) fs = runOv ops (stepFS true false fs op) := rfl
    rw [hstep, ih _ p (fun op' hop' => h op' (List.mem_cons_of_mem op hop'))]
    rw [stepFS_true]
    rcases hs : fsRead fs op.source_path with _ | c
    · rfl
    · exact fsRead_fsWrite_ne fs op.dest_path c p (h op (List.mem_cons_self op ops))

theorem writeList_congr :
    ∀ (ops : List CopyOp) (fs1 fs2 : FS),
      (∀ op ∈ ops, fsRead fs1 op.source_path = fsRead fs2 op.source_path) →
      writeList fs1 ops = writeList fs2 ops := by
  intro ops
  induction ops with
  | nil => intro fs1 fs2 _; rfl
  | cons op ops ih =>
    intro fs1 fs2 h
    have h0 : fsRead fs1 op.source_path = fsRead fs2 op.source_path :=
      h op (List.mem_cons_self op ops)
    have hrest := ih fs1 fs2 (fun op' hop' => h op' (List.mem_cons_of_mem op hop'))
    simp [writeList, List.filterMap_cons] at hrest ⊢
    rw [h0, hrest]

theorem runOv_eq_applyWrites :
    ∀ (ops : List CopyOp) (fs : FS),
      (∀ op ∈ ops, ∀ op' ∈ ops, op.dest_path ≠ op'.source_path) →
      runOv ops fs = applyWrites fs (writeList fs ops) := by
  intro ops
  induction ops with
  | nil => intro fs _; rfl
  | cons op ops ih =>
    intro fs hd
    have hd' : ∀ o ∈ ops, ∀ o' ∈ ops, o.dest_path ≠ o'.source_path :=
      fun o ho o' ho' =>
        hd o (List.mem_cons_of_mem op ho) o' (List.mem_cons_of_mem op ho')
    have hstep : runOv (op :: ops) fs = runOv ops (stepFS true false fs op) := rfl
    rw [hstep, stepFS_true]
    rcases hs : fsRead fs op.source_path with _ | c
    · have hw : writeList fs (op :: ops) = writeList fs ops := by
        simp [writeList, List.filterMap_cons, hs]
      rw [hw]
      exact ih fs hd'
    · have hreads : ∀ o ∈ ops,
          fsRead (fsWrite fs op.dest_path c) o.source_path = fsRead fs o.source_path := by
        intro o ho
        apply fsRead_fsWrite_ne
        intro he
        exact hd op (List.mem_cons_self op ops) o (List.mem_cons_of_mem op ho) he.symm
      have hw : writeList fs (op :: ops) = (op.dest_path, c) :: writeList fs ops := by
        simp [writeList, List.filterMap_cons, hs]
      have hw' : writeList (fsWrite fs op.dest_path c) ops = writeList fs ops :=
        writeList_congr ops _ fs hreads
      rw [hw]
      have happ : applyWrites fs ((op.dest_path, c) :: writeList fs ops) =
          applyWrites (fsWrite fs op.dest_path c) (writeList fs ops) := rfl
      rw [happ, ← hw']
      exact ih (fsWrite fs op.dest_path c) hd'

/-- C5 counterexample: a plan whose second CopyOp's destination is the
first CopyOp's source.  The first run leaves the first op skipped (its
source is missing) but creates that source; the second run then performs
the first copy, so running the plan twice with overwrite creates a file
at "b" that a single run does not create. -/
theorem execute_overwrite_twice_counterexample :
    fsRead (execute ⟨[⟨"a", "b", "r1"⟩, ⟨"c", "a", "r1"⟩], []⟩ true false
        (execute ⟨[⟨"a", "b", "r1"⟩, ⟨"c", "a", "r1"⟩], []⟩ true false [("c", "x")]).1).1 "b" ≠
      fsRead (execute ⟨[⟨"a", "b", "r1"⟩, ⟨"c", "a", "r1"⟩], []⟩ true false [("c", "x")]).1 "b" := by
  decide

/-- C5 amended: running `execute` with overwrite on twice in succession
leaves every path of the filesystem in the same state as running it once,
provided no CopyOp's destination path is any CopyOp's source path (without
that proviso the counterexample above refutes the unrestricted claim). -/
theorem execute_overwrite_idempotent (pl : DistributionPlan) (fs : FS) (p : String)
    (hdisj : ∀ op ∈ pl.ops, ∀ op' ∈ pl.ops, op.dest_path ≠ op'.source_path) :
    fsRead (execute pl true false (execute pl true false fs).1).1 p =
      fsRead (execute pl true false fs).1 p := by
  simp only [execute_fst]
  show fsRead (runOv pl.ops (runOv pl.ops fs)) p = fsRead (runOv pl.ops fs) p
  have hsrc : ∀ op ∈ pl.ops,
      fsRead (runOv pl.ops fs) op.source_path = fsRead fs op.source_path := by
    intro op hop
    apply fsRead_runOv_not_dest
    intro op' hop'
    exact fun he => hdisj op' hop' op hop he.symm
  have h2 : writeList (runOv pl.ops fs) pl.ops = writeList fs pl.ops :=
    writeList_congr pl.ops _ fs hsrc
  rw [runOv_eq_applyWrites pl.ops (runOv pl.ops fs) hdisj, h2,
    runOv_eq_applyWrites pl.ops fs hdisj]
  rw [applyWrites_read, applyWrites_read]
  rcases hlw : lastWrite (writeList fs pl.ops) p with _ | c <;> simp

/-- Concrete fixtures for the idempotent overwrite scenario. -/
def planW : DistributionPlan := ⟨[⟨"s1", "d1", "r1"⟩, ⟨"s2", "d2", "r1"⟩], []⟩

def fsW : FS := [("s1", "payload")]

theorem execute_overwrite_idempotent_witness :
    (∀ op ∈ planW.ops, ∀ op' ∈ planW.ops, op.dest_path ≠ op'.source_path) ∧
      fsRead (execute planW true false (execute planW true false fsW).1).1 "d1" =
        fsRead (execute planW true false fsW).1 "d1" :=
  ⟨by decide, execute_overwrite_idempotent planW fsW "d1" (by decide)⟩

/- ===== Report data model and Distribution Planner ===== -/

/-- Audit record created by the Rule Matcher for one matching message. -/
structure AuditRecord where
  message_ref : String
  matched_rules : List Nat
  section_label : String
deriving DecidableEq

/-- One section of the report: its folder label, its audit records and
the backing artifact path copied during distribution. -/
structure ReportSection where
  label : String
  records : List AuditRecord
  artifact_path : String
deriving DecidableEq

/-- Structured report produced by the Audit Report Builder. -/
structure Report where
  sections : List ReportSection
  generated_at : String
  source_config_fingerprint : String
deriving DecidableEq

/-- One entry of the recipient table. -/
structure Recipient where
  recipient_id : String
  contact_address : String
  folder_labels : List String
deriving DecidableEq

/-- Section of the report carrying a given folder label, if any. -/
def lookupSection (report : Report) (lbl : String) : Option ReportSection :=
  report.sections.find? (fun s => s.label == lbl)

/-- Modelled from the spec: display name of a folder label, resolved via
the rename table and falling back to the raw label when no rename entry
exists (section 4.4). -/
def displayName (rt : List (String × String)) (lbl : String) : String :=
  match rt.find? (fun e => e.1 == lbl) with
  | some e => e.2
  | none => lbl

/-- CopyOp from a section's backing artifact to
`<destination_root>/<recipient_id>/<display_name>`. -/
def mkCopyOp (root rid : String) (rt : List (String × String)) (lbl : String)
    (s : ReportSection) : CopyOp :=
  ⟨s.artifact_path, root ++ "/" ++ rid ++ "/" ++ displayName rt lbl, rid⟩

/-- Modelled from the spec: processing of one folder label of one
recipient by the Distribution Planner; a label absent from the report's
sections emits a `MissingSectionWarning` (collected, not raised), a
present one appends a CopyOp (section 4.4). -/
def planStep (report : Report) (rt : List (String × String)) (root rid : String)
    (acc : DistributionPlan) (lbl : String) : DistributionPlan :=
  match lookupSection report lbl with
  | some s => { acc with ops := acc.ops ++ [mkCopyOp root rid rt lbl s] }
  | none => { acc with warnings := acc.warnings ++ [Warning.MissingSectionWarning rid lbl] }

/-- Folder labels of one recipient, processed in their declared order. -/
def planRecipient (report : Report) (rt : List (String × String)) (root : String)
    (acc : DistributionPlan) (r : Recipient) : DistributionPlan :=
  r.folder_labels.foldl (planStep report rt root r.recipient_id) acc

/-- Modelled from the spec: the Distribution Planner contract
`plan(report, rename_table, recipient_table)` with the destination root,
visiting recipients in recipient-table order and folder labels in
per-recipient order (section 4.4). -/
def plan (report : Report) (rt : List (String × String)) (rcpts : List Recipient)
    (root : String) : DistributionPlan :=
  rcpts.foldl (planRecipient report rt root) ⟨[], []⟩

/-- Declarative form of the CopyOps one recipient contributes. -/
def recipientOps (report : Report) (rt : List (String × String)) (root : String)
    (r : Recipient) : List CopyOp :=
  r.folder_labels.filterMap
    (fun lbl => (lookupSection report lbl).map (mkCopyOp root r.recipient_id rt lbl))

/-- Declarative form of the warnings one recipient contributes. -/
def recipientWarnings (report : Report) (r : Recipient) : List Warning :=
  r.folder_labels.filterMap
    (fun lbl =>
      match lookupSection report lbl with
      | some _ => none
      | none => some (Warning.MissingSectionWarning r.recipient_id lbl))

theorem foldl_planStep_spec (report : Report) (rt : List (String × String))
    (root rid : String) :
    ∀ (labels : List String) (acc : DistributionPlan),
      labels.foldl (planStep report rt root rid) acc =
        ⟨acc.ops ++ labels.filterMap
            (fun lbl => (lookupSection report lbl).map (mkCopyOp root rid rt lbl)),
          acc.warnings ++ labels.filterMap
            (fun lbl =>
              match lookupSection report lbl with
              | some _ => none
              | none => some (Warning.MissingSectionWarning rid lbl))⟩ := by
  intro labels
  induction labels with
  | nil => intro acc; simp
  | cons lbl labels ih =>
    intro acc
    rw [List.foldl_cons, ih]
    rcases hl : lookupSection report lbl with _ | s <;>
      simp [planStep, hl, List.filterMap_cons]

theorem plan_spec (report : Report) (rt : List (String × String))
    (rcpts : List Recipient) (root : String) :
    plan report rt rcpts root =
      ⟨rcpts.flatMap (recipientOps report rt root),
        rcpts.flatMap (recipientWarnings report)⟩ := by
  show rcpts.foldl (planRecipient report rt root) ⟨[], []⟩ = _
  have hgo : ∀ (l : List Recipient) (acc : DistributionPlan),
      l.foldl (planRecipient report rt root) acc =
        ⟨acc.ops ++ l.flatMap (recipientOps report rt root),
          acc.warnings ++ l.flatMap (recipientWarnings report)⟩ := by
    intro l
    induction l with
    | nil => intro acc; simp
    | cons r l ih =>
      intro acc
      rw [List.foldl_cons]
      show l.foldl (planRecipient report rt root)
          (r.folder_labels.foldl (planStep report rt root r.recipient_id) acc) = _
      rw [foldl_planStep_spec, ih]
      simp [recipientOps, recipientWarnings, List.flatMap_cons, List.append_assoc]
  simpa using hgo rcpts ⟨[], []⟩

/-- C6: the planner is a pure function of its inputs: two calls of
`plan` on equal report, rename table, recipient table and destination
root yield identical ordered DistributionPlans. -/
theorem plan_deterministic (rep1 rep2 : Report) (rt1 rt2 : List (String × String))
    (rc1 rc2 : List Recipient) (root1 root2 : String)
    (hrep : rep1 = rep2) (hrt : rt1 = rt2) (hrc : rc1 = rc2) (hroot : root1 = root2) :
    plan rep1 rt1 rc1 root1 = plan rep2 rt2 rc2 root2 := by
  subst hrep
  subst hrt
  subst hrc
  subst hroot
  rfl

/-- C7: the CopyOps of a plan are exactly the recipient-table-ordered,
then folder-label-ordered concatenation of one CopyOp per label present
in the report, each copying the section's backing artifact to
`<destination_root>/<recipient_id>/<display_name>`; a label without a
rename entry falls back to the raw label as its display name. -/
theorem plan_ordering_and_paths (report : Report) (rt : List (String × String))
    (rcpts : List Recipient) (root : String) (lbl : String)
    (hnone : rt.find? (fun e => e.1 == lbl) = none) :
    (plan report rt rcpts root).ops =
        rcpts.flatMap (fun r =>
          r.folder_labels.filterMap (fun l =>
            (lookupSection report l).map (fun s =>
              CopyOp.mk s.artifact_path
                (root ++ "/" ++ r.recipient_id ++ "/" ++ displayName rt l)
                r.recipient_id))) ∧
      displayName rt lbl = lbl := by
  constructor
  · rw [plan_spec]
    rfl
  · simp [displayName, hnone]

/- ===== Missing-section behaviour of the planner ===== -/

theorem mem_recipientWarnings (report : Report) (r : Recipient) (w : Warning)
    (h : w ∈ recipientWarnings report r) :
    ∃ l, l ∈ r.folder_labels ∧ lookupSection report l = none ∧
      w = Warning.MissingSectionWarning r.recipient_id l := by
  rcases List.mem_filterMap.mp h with ⟨l, hl, hf⟩
  rcases hlook : lookupSection report l with _ | s
  · rw [hlook] at hf
    exact ⟨l, hl, hlook, (Option.some.inj hf).symm⟩
  · rw [hlook] at hf
    exact absurd hf (by simp)

theorem count_recipientWarnings_ne (report : Report) (r : Recipient)
    (rid lbl : String) (hne : r.recipient_id ≠ rid) :
    (recipientWarnings report r).count (Warning.MissingSectionWarning rid lbl) = 0 := by
  apply List.count_eq_zero_of_not_mem
  intro hmem
  rcases mem_recipientWarnings report r _ hmem with ⟨l, _, _, he⟩
  exact hne (by injection he with h1 h2; exact h1.symm)

theorem count_recipientWarnings_self (report : Report) (r : Recipient) (lbl : String)
    (hl : lbl ∈ r.folder_labels) (hlbls : r.folder_labels.Nodup)
    (hmiss : lookupSection report lbl = none) :
    (recipientWarnings report r).count
      (Warning.MissingSectionWarning r.recipient_id lbl) = 1 := by
  have key : ∀ labels : List String,
      (labels.filterMap (fun l =>
          match lookupSection report l with
          | some _ => none
          | none => some (Warning.MissingSectionWarning r.recipient_id l))).count
        (Warning.MissingSectionWarning r.recipient_id lbl) =
      (labels.filter (fun l => (lookupSection report l).isNone)).count lbl := by
    intro labels
    induction labels with
    | nil => rfl
    | cons l ls ih =>
      rcases hlook : lookupSection report l with _ | s
      · by_cases hll : l = lbl
        · subst hll
          simp [List.filterMap_cons, hlook, List.filter_cons, List.count_cons, ih]
        · have hwne : Warning.MissingSectionWarning r.recipient_id l ≠
              Warning.MissingSectionWarning r.recipient_id lbl := by
            intro he
            injection he with h1 h2
            exact hll h2
          simp [List.filterMap_cons, hlook, List.filter_cons, List.count_cons, ih, hwne, hll]
      · simp [List.filterMap_cons, hlook, List.filter_cons, ih]
  show (r.folder_labels.filterMap _).count _ = 1
  rw [key r.folder_labels]
  rw [@List.count_filter String _ _ (fun l => (lookupSection report l).isNone) lbl
    r.folder_labels (by simp [hmiss])]
  exact List.count_eq_one_of_mem hlbls hl

theorem plan_warning_count (report : Report) :
    ∀ (rcpts : List Recipient) (r : Recipient) (lbl : String),
      r ∈ rcpts → (rcpts.map Recipient.recipient_id).Nodup →
      lbl ∈ r.folder_labels → r.folder_labels.Nodup →
      lookupSection report lbl = none →
      (rcpts.flatMap (recipientWarnings report)).count
        (Warning.MissingSectionWarning r.recipient_id lbl) = 1 := by
  intro rcpts
  induction rcpts with
  | nil => intro r lbl hr; exact absurd hr (List.not_mem_nil r)
  | cons x rs ih =>
    intro r lbl hr hids hl hlbls hmiss
    have hids' : (rs.map Recipient.recipient_id).Nodup := (List.nodup_cons.mp hids).2
    have hxnot : x.recipient_id ∉ rs.map Recipient.recipient_id := (List.nodup_cons.mp hids).1
    rcases List.mem_cons.mp hr with he | hmem
    · subst he
      have hzero : (rs.flatMap (recipientWarnings report)).count
          (Warning.MissingSectionWarning r.recipient_id lbl) = 0 := by
        apply List.count_eq_zero_of_not_mem
        intro hw
        rcases List.mem_flatMap.mp hw with ⟨r', hr', hwmem⟩
        rcases mem_recipientWarnings report r' _ hwmem with ⟨l, _, _, he⟩
        have hid : r'.recipient_id = r.recipient_id := by
          injection he with h1 h2
          exact h1.symm
        exact hxnot (hid ▸ List.mem_map_of_mem Recipient.recipient_id hr')
      rw [List.flatMap_cons, List.count_append,
        count_recipientWarnings_self report r lbl hl hlbls hmiss, hzero]
    · have hxne : x.recipient_id ≠ r.recipient_id := by
        intro he
        exact hxnot (he ▸ List.mem_map_of_mem Recipient.recipient_id hmem)
      rw [List.flatMap_cons, List.count_append,
        count_recipientWarnings_ne report x r.recipient_id lbl hxne,
        ih r lbl hmem hids' hl hlbls hmiss]

theorem mem_recipientOps_id (report : Report) (rt : List (String × String))
    (root : String) (r : Recipient) (op : CopyOp)
    (h : op ∈ recipientOps report rt root r) :
    op.recipient_id = r.recipient_id := by
  rcases List.mem_filterMap.mp h with ⟨l, _, hf⟩
  rcases hlook : lookupSection report l with _ | s
  · rw [hlook] at hf
    exact absurd hf (by simp)
  · rw [hlook] at hf
    have : mkCopyOp root r.recipient_id rt l s = op := by simpa using hf
    rw [← this]
    rfl

theorem filterMap_erase_of_none (f : String → Option CopyOp) (a : String) (hf : f a = none) :
    ∀ l : List String, (l.erase a).filterMap f = l.filterMap f := by
  intro l
  induction l with
  | nil => rfl
  | cons x xs ih =>
    by_cases hx : x = a
    · subst hx
      simp [List.erase_cons, List.filterMap_cons, hf]
    · have hbeq : (x == a) = false := by simp [hx]
      rw [List.erase_cons, hbeq]
      simp only [Bool.false_eq_true, if_false]
      rcases hfx : f x with _ | b <;>
        simp [List.filterMap_cons, hfx, ih]

theorem plan_ops_filter_self (report : Report) (rt : List (String × String)) (root : String) :
    ∀ (rcpts : List Recipient) (r : Recipient),
      r ∈ rcpts → (rcpts.map Recipient.recipient_id).Nodup →
      (rcpts.flatMap (recipientOps report rt root)).filter
          (fun op => op.recipient_id == r.recipient_id) =
        recipientOps report rt root r := by
  intro rcpts
  induction rcpts with
  | nil => intro r hr; exact absurd hr (List.not_mem_nil r)
  | cons x rs ih =>
    intro r hr hids
    have hids' : (rs.map Recipient.recipient_id).Nodup := (List.nodup_cons.mp hids).2
    have hxnot : x.recipient_id ∉ rs.map Recipient.recipient_id := (List.nodup_cons.mp hids).1
    rcases List.mem_cons.mp hr with he | hmem
    · subst he
      have hself : (recipientOps report rt root r).filter
          (fun op => op.recipient_id == r.recipient_id) = recipientOps report rt root r := by
        rw [List.filter_eq_self]
        intro op hop
        simp [mem_recipientOps_id report rt root r op hop]
      have hrest : (rs.flatMap (recipientOps report rt root)).filter
          (fun op => op.recipient_id == r.recipient_id) = [] := by
        rw [List.filter_eq_nil_iff]
        intro op hop
        rcases List.mem_flatMap.mp hop with ⟨r', hr', hopmem⟩
        have hid := mem_recipientOps_id report rt root r' op hopmem
        simp only [hid]
        intro hbeq
        have : r'.recipient_id = r.recipient_id := by simpa using hbeq
        exact hxnot (this ▸ List.mem_map_of_mem Recipient.recipient_id hr')
      rw [List.flatMap_cons, List.filter_append, hself, hrest, List.append_nil]
    · have hxne : x.recipient_id ≠ r.recipient_id := by
        intro he
        exact hxnot (he ▸ List.mem_map_of_mem Recipient.recipient_id hmem)
      have hx0 : (recipientOps report rt root x).filter
          (fun op => op.recipient_id == r.recipient_id) = [] := by
        rw [List.filter_eq_nil_iff]
        intro op hop
        have hid := mem_recipientOps_id report rt root x op hop
        simp [hid, hxne]
      rw [List.flatMap_cons, List.filter_append, hx0, List.nil_append]
      exact ih r hmem hids'

/-- C8: for a recipient whose folder labels contain a label absent from
the report's sections, the planner (a total function, so it cannot
raise) collects exactly one `MissingSectionWarning` for that label, and
the CopyOps it produces for that recipient are exactly those of the
recipient's label list with the missing label removed — no CopyOp is
produced for that label.  The two Nodup hypotheses encode the spec's
data model: `folder_labels` is a set and recipients are keyed by
`recipient_id`. -/
theorem plan_missing_section (report : Report) (rt : List (String × String))
    (rcpts : List Recipient) (root : String) (r : Recipient) (lbl : String)
    (hr : r ∈ rcpts) (hl : lbl ∈ r.folder_labels)
    (hmiss : lookupSection report lbl = none)
    (hids : (rcpts.map Recipient.recipient_id).Nodup)
    (hlbls : r.folder_labels.Nodup) :
    (plan report rt rcpts root).warnings.count
        (Warning.MissingSectionWarning r.recipient_id lbl) = 1 ∧
      (plan report rt rcpts root).ops.filter
          (fun op => op.recipient_id == r.recipient_id) =
        recipientOps report rt root
          ⟨r.recipient_id, r.contact_address, r.folder_labels.erase lbl⟩ := by
  rw [plan_spec]
  constructor
  · exact plan_warning_count report rcpts r lbl hr hids hl hlbls hmiss
  · show (rcpts.flatMap (recipientOps report rt root)).filter _ = _
    rw [plan_ops_filter_self report rt root rcpts r hr hids]
    show r.folder_labels.filterMap _ =
      (r.folder_labels.erase lbl).filterMap
        (fun l => (lookupSection report l).map (mkCopyOp root r.recipient_id rt l))
    rw [filterMap_erase_of_none _ lbl (by simp [hmiss]) r.folder_labels]

/-- Concrete planner fixtures. -/
def secInternal : ReportSection := ⟨"Internal", [], "artifacts/Internal.xlsx"⟩

def report0 : Report := ⟨[secInternal], "2021-01-01", "fp-1"⟩

def rt0 : List (String × String) := [("Internal", "Internal Fraud")]

def rcpt0 : Recipient := ⟨"r1", "audit@bank.com", ["Flagged", "Internal"]⟩

def rcpts0 : List Recipient := [rcpt0]

theorem plan_deterministic_witness :
    report0 = report0 ∧ rt0 = rt0 ∧ rcpts0 = rcpts0 ∧
      plan report0 rt0 rcpts0 "root" = plan report0 rt0 rcpts0 "root" :=
  ⟨rfl, rfl, rfl,
    plan_deterministic report0 report0 rt0 rt0 rcpts0 rcpts0 "root" "root" rfl rfl rfl rfl⟩

theorem plan_ordering_and_paths_witness :
    rt0.find? (fun e => e.1 == "Others") = none ∧
      ((plan report0 rt0 rcpts0 "root").ops =
          rcpts0.flatMap (fun r =>
            r.folder_labels.filterMap (fun l =>
              (lookupSection report0 l).map (fun s =>
                CopyOp.mk s.artifact_path
                  ("root" ++ "/" ++ r.recipient_id ++ "/" ++ displayName rt0 l)
                  r.recipient_id))) ∧
        displayName rt0 "Others" = "Others") :=
  ⟨by decide, plan_ordering_and_paths report0 rt0 rcpts0 "root" "Others" (by decide)⟩

theorem plan_missing_section_witness :
    (rcpt0 ∈ rcpts0 ∧ "Flagged" ∈ rcpt0.folder_labels ∧
        lookupSection report0 "Flagged" = none ∧
        (rcpts0.map Recipient.recipient_id).Nodup ∧ rcpt0.folder_labels.Nodup) ∧
      ((plan report0 rt0 rcpts0 "root").warnings.count
          (Warning.MissingSectionWarning rcpt0.recipient_id "Flagged") = 1 ∧
        (plan report0 rt0 rcpts0 "root").ops.filter
            (fun op => op.recipient_id == rcpt0.recipient_id) =
          recipientOps report0 rt0 "root"
            ⟨rcpt0.recipient_id, rcpt0.contact_address,
              rcpt0.folder_labels.erase "Flagged"⟩) :=
  ⟨⟨by decide, by decide, by decide, by decide, by decide⟩,
    plan_missing_section report0 rt0 rcpts0 "root" rcpt0 "Flagged"
      (by decide) (by decide) (by decide) (by decide) (by decide)⟩

/- ===== Mail Scanner and Audit Report Builder ===== -/

/-- Mail-store abstraction of section 6: resolving a section label either
yields the messages under the corresponding sub-path or fails. -/
structure MailStore where
  resolve : String → Option (List RawMessage)

/-- Audit records of one section: one record per message the rule set
matches, messages with zero matching rules excluded. -/
def sectionRecords (rules : List FilterRule) (lbl : String)
    (msgs : List RawMessage) : List AuditRecord :=
  msgs.filterMap (fun msg =>
    if (evaluate msg rules).matched then
      some ⟨msg.body_ref, (evaluate msg rules).matched_rules, lbl⟩
    else none)

/-- Report section built for one resolvable section label. -/
def sectionOf (rules : List FilterRule) (lbl : String)
    (msgs : List RawMessage) : ReportSection :=
  ⟨lbl, sectionRecords rules lbl msgs, lbl⟩

/-- Modelled from the spec: the Audit Report Builder contract
`extract(root_path) -> Report` (sections 4.1 and 4.3) over the mail-store
abstraction: each section label is resolved, a failing label is recorded
as `SectionNotFound` and skipped while scanning continues, and each
resolvable label contributes a section (possibly with zero records); a
Report is returned even when every section is empty. -/
def extract (store : MailStore) (rules : List FilterRule) (labels : List String)
    (generated_at fingerprint : String) : Report × List Warning :=
  labels.foldl
    (fun acc lbl =>
      match store.resolve lbl with
      | none => (acc.1, acc.2 ++ [Warning.SectionNotFound lbl])
      | some msgs =>
        ({ acc.1 with sections := acc.1.sections ++ [sectionOf rules lbl msgs] }, acc.2))
    (⟨[], generated_at, fingerprint⟩, [])

theorem extract_spec (store : MailStore) (rules : List FilterRule)
    (labels : List String) (g fp : String) :
    extract store rules labels g fp =
      (⟨labels.filterMap (fun lbl => (store.resolve lbl).map (sectionOf rules lbl)), g, fp⟩,
        labels.filterMap (fun lbl =>
          match store.resolve lbl with
          | some _ => none
          | none => some (Warning.SectionNotFound lbl))) := by
  have hgo : ∀ (ls : List String) (rep : Report) (ws : List Warning),
      ls.foldl
          (fun acc lbl =>
            match store.resolve lbl with
            | none => (acc.1, acc.2 ++ [Warning.SectionNotFound lbl])
            | some msgs =>
              ({ acc.1 with sections := acc.1.sections ++ [sectionOf rules lbl msgs] }, acc.2))
          (rep, ws) =
        ({ rep with sections := rep.sections ++
            ls.filterMap (fun lbl => (store.resolve lbl).map (sectionOf rules lbl)) },
          ws ++ ls.filterMap (fun lbl =>
            match store.resolve lbl with
            | some _ => none
            | none => some (Warning.SectionNotFound lbl))) := by
    intro ls
    induction ls with
    | nil => intro rep ws; simp
    | cons lbl ls ih =>
      intro rep ws
      rw [List.foldl_cons]
      rcases hl : store.resolve lbl with _ | msgs <;>
        simp [hl, ih, List.filterMap_cons, List.append_assoc]
  have h := hgo labels ⟨[], g, fp⟩ []
  simpa [extract] using h

theorem filterMap_section_labels (store : MailStore) (rules : List FilterRule) :
    ∀ labels : List String,
      labels.filterMap (fun lbl =>
          (store.resolve lbl).map (ReportSection.label ∘ sectionOf rules lbl)) =
        labels.filter (fun l => (store.resolve l).isSome) := by
  intro labels
  induction labels with
  | nil => rfl
  | cons lbl ls ih =>
    rcases hl : store.resolve lbl with _ | msgs <;>
      simp [List.filterMap_cons, List.filter_cons, hl, ih, sectionOf, Function.comp]

/-- C9: a section label that fails to resolve is reported as
`SectionNotFound` and skipped while scanning continues (the resulting
sections are exactly the resolvable labels, in order), `extract` still
returns a Report (it is a total function), and a resolvable section with
zero messages contributes a section whose record sequence is empty — an
all-empty Report being a possible value, not an error. -/
theorem extract_section_handling (store : MailStore) (rules : List FilterRule)
    (labels : List String) (g fp : String) (lblA lblB : String)
    (hA : lblA ∈ labels) (hrA : store.resolve lblA = none)
    (hB : lblB ∈ labels) (hrB : store.resolve lblB = some []) :
    Warning.SectionNotFound lblA ∈ (extract store rules labels g fp).2 ∧
      (extract store rules labels g fp).1.sections.map ReportSection.label =
        labels.filter (fun l => (store.resolve l).isSome) ∧
      sectionOf rules lblB [] ∈ (extract store rules labels g fp).1.sections ∧
      (sectionOf rules lblB []).records = [] := by
  rw [extract_spec]
  refine ⟨?_, ?_, ?_, rfl⟩
  · apply List.mem_filterMap.mpr
    exact ⟨lblA, hA, by rw [hrA]⟩
  · rw [List.map_filterMap]
    simp only [Option.map_map]
    exact filterMap_section_labels store rules labels
  · apply List.mem_filterMap.mpr
    exact ⟨lblB, hB, by rw [hrB]; rfl⟩

/-- Concrete mail-store fixtures: one populated section, one empty
section, one label that does not resolve. -/
def store0 : MailStore :=
  ⟨fun l =>
    if l = "Internal" then some [msg0]
    else if l = "Others" then some [] else none⟩

def labels0 : List String := ["Internal", "Others", "Missing"]

theorem extract_section_handling_witness :
    ("Missing" ∈ labels0 ∧ store0.resolve "Missing" = none ∧
        "Others" ∈ labels0 ∧ store0.resolve "Others" = some []) ∧
      (Warning.SectionNotFound "Missing" ∈ (extract store0 rules0 labels0 "t1" "fp").2 ∧
        (extract store0 rules0 labels0 "t1" "fp").1.sections.map ReportSection.label =
          labels0.filter (fun l => (store0.resolve l).isSome) ∧
        sectionOf rules0 "Others" [] ∈ (extract store0 rules0 labels0 "t1" "fp").1.sections ∧
        (sectionOf rules0 "Others" []).records = []) :=
  ⟨⟨by decide, by decide, by decide, by decide⟩,
    extract_section_handling store0 rules0 labels0 "t1" "fp" "Missing" "Others"
      (by decide) (by decide) (by decide) (by decide)⟩
